import Mathlib

/-!
Verification of reversefold/util against its specification.

Shallow embedding of the relevant parts of the repository:
* `rate_limit_gen` from reversefold/util/__init__.py
* `FileLineFollower.__iter__` from reversefold/util/follow.py
* `LinePipe.flow` from reversefold/util/multiproc.py
* `LockedPidFile.acquire` / `LockedPidFile.release` and the app-pidfile
  failure branch of `main` from reversefold/util/daemonize.py
* `get_process_tree` from reversefold/util/proc.py and proc2.py

Strings are modelled as `List Char`, times as natural-number timestamps
(cast to `Int` where the code subtracts datetimes), and the OS process
table / filesystem as explicit state values.
-/

/-! ## rate_limit_gen (reversefold/util/__init__.py)

```python
def rate_limit_gen(gen, period, limit):
    start = datetime.now()
    count = -1
    for value in gen:
        count += 1
        if datetime.now() - start < period:
            if count == limit:
                yield RATE_LIMIT_SENTINEL
                continue
            elif count > limit:
                continue
        else:
            start = datetime.now()
            count = 0
        yield value
```

Each input item carries its arrival timestamp (the value of
`datetime.now()` when the loop body runs for it).  `RATE_LIMIT_SENTINEL`
is modelled by `RLItem.sentinel`.
-/

inductive RLItem (α : Type) where
  | value (a : α)
  | sentinel
deriving DecidableEq, Repr

/-- The loop of `rate_limit_gen`, with explicit `start` / `count` state.
`count` is an `Int` because the code starts it at `-1`. -/
def rlgAux {α : Type} (period limit : Int) :
    List (Nat × α) → Nat → Int → List (RLItem α)
  | [], _, _ => []
  | (t, v) :: rest, start, count =>
    let count := count + 1
    if (t : Int) - (start : Int) < period then
      if count = limit then RLItem.sentinel :: rlgAux period limit rest start count
      else if count > limit then rlgAux period limit rest start count
      else RLItem.value v :: rlgAux period limit rest start count
    else
      RLItem.value v :: rlgAux period limit rest t 0

/-- `rate_limit_gen`: `start0` is the timestamp taken when the generator
body first runs, `timed` pairs each generated value with its arrival
timestamp. -/
def rate_limit_gen {α : Type} (period limit : Int) (timed : List (Nat × α))
    (start0 : Nat) : List (RLItem α) :=
  rlgAux period limit timed start0 (-1)

lemma rlgAux_within {α : Type} (period limit : Int) :
    ∀ (vs : List (Nat × α)) (start : Nat) (c : Int),
      (∀ p ∈ vs, ((p.1 : Int) - (start : Int) < period)) →
      rlgAux period limit vs start c =
        if limit ≤ c then []
        else
          ((vs.take (limit - 1 - c).toNat).map (fun p => RLItem.value p.2)) ++
            (if limit - c ≤ (vs.length : Int) then [RLItem.sentinel] else []) := by
  intro vs
  induction vs with
  | nil =>
    intro start c _
    simp only [rlgAux, List.take_nil, List.map_nil, List.nil_append, List.length_nil,
      Nat.cast_zero]
    split
    · rfl
    · rename_i hc
      rw [if_neg (by omega)]
  | cons hd tl ih =>
    intro start c hw
    obtain ⟨t, v⟩ := hd
    have hhd : (t : Int) - (start : Int) < period := hw (t, v) (by simp)
    have htl : ∀ p ∈ tl, ((p.1 : Int) - (start : Int) < period) :=
      fun p hp => hw p (List.mem_cons_of_mem _ hp)
    simp only [rlgAux, if_pos hhd]
    by_cases heq : c + 1 = limit
    · rw [if_pos heq, ih start (c + 1) htl, if_pos (by omega)]
      have hc : ¬ limit ≤ c := by omega
      rw [if_neg hc]
      have htake : (limit - 1 - c).toNat = 0 := by omega
      rw [htake]
      have hsent : limit - c ≤ (((t, v) :: tl).length : Int) := by
        simp only [List.length_cons]
        push_cast
        omega
      rw [if_pos hsent]
      simp
    · by_cases hgt : c + 1 > limit
      · rw [if_neg heq, if_pos hgt, ih start (c + 1) htl,
          if_pos (by omega), if_pos (by omega)]
      · rw [if_neg heq, if_neg hgt, ih start (c + 1) htl]
        rw [if_neg (show ¬ limit ≤ c + 1 by omega),
          if_neg (show ¬ limit ≤ c by omega)]
        have htake : (limit - 1 - c).toNat = (limit - 1 - (c + 1)).toNat + 1 := by
          omega
        rw [htake, List.take_succ_cons, List.map_cons, List.cons_append]
        have hiff : (limit - c ≤ (((t, v) :: tl).length : Int)) ↔
            (limit - (c + 1) ≤ (tl.length : Int)) := by
          simp only [List.length_cons]
          push_cast
          omega
        by_cases hsent : limit - (c + 1) ≤ (tl.length : Int)
        · rw [if_pos hsent, if_pos (hiff.mpr hsent)]
        · rw [if_neg hsent, if_neg (fun h => hsent (hiff.mp h))]

/-- C2: for limit `L ≥ 1`, when all `N` items arrive within one window of
length `P` starting at `start0`, `rate_limit_gen` yields the first
`min N L` items unchanged, then exactly one sentinel if `N > L` (and
nothing further within the window), and no sentinel if `N ≤ L`. -/
theorem rate_limit_gen_single_window {α : Type} (period limit : Int)
    (vs : List (Nat × α)) (start0 : Nat)
    (hL : 1 ≤ limit)
    (hw : ∀ p ∈ vs, ((p.1 : Int) - (start0 : Int) < period)) :
    rate_limit_gen period limit vs start0 =
      ((vs.take limit.toNat).map (fun p => RLItem.value p.2)) ++
        (if limit < (vs.length : Int) then [RLItem.sentinel] else []) := by
  rw [rate_limit_gen, rlgAux_within period limit vs start0 (-1) hw,
    if_neg (by omega)]
  have htake : (limit - 1 - (-1)).toNat = limit.toNat := by omega
  rw [htake]
  by_cases hsent : limit < (vs.length : Int)
  · rw [if_pos hsent, if_pos (by omega)]
  · rw [if_neg hsent, if_neg (by omega)]

theorem rate_limit_gen_single_window_witness :
    rate_limit_gen 10 2 [(0, "a"), (1, "b"), (2, "c"), (3, "d")] 0 =
      [RLItem.value "a", RLItem.value "b", RLItem.sentinel] := by
  rw [rate_limit_gen_single_window 10 2 [(0, "a"), (1, "b"), (2, "c"), (3, "d")] 0
    (by norm_num) (by decide)]
  decide

/-- C10: the window reset is lazy: an item arriving at least one full
period after the current window start is always yielded as a value —
whatever the current count, even if the previous window was exhausted —
and the run continues with a new window starting at its arrival time and
count reset to `0`. -/
theorem rate_limit_gen_lazy_reset {α : Type} (period limit : Int)
    (start : Nat) (c : Int) (t : Nat) (v : α) (rest : List (Nat × α))
    (h : period ≤ (t : Int) - (start : Int)) :
    rlgAux period limit ((t, v) :: rest) start c =
      RLItem.value v :: rlgAux period limit rest t 0 := by
  simp only [rlgAux, if_neg (not_lt.mpr h)]

theorem rate_limit_gen_lazy_reset_witness :
    rlgAux 5 2 [((10 : Nat), "x")] 0 7 = [RLItem.value "x"] := by
  rw [rate_limit_gen_lazy_reset 5 2 0 7 10 "x" [] (by norm_num)]
  decide

/-! ## FileLineFollower (reversefold/util/follow.py)

```python
def __iter__(self):
    buf = []
    while True:
        new_line = self.file.readline()
        if not new_line:
            if self.finish:
                raise StopIteration()
            time.sleep(0.1)
            continue
        buf.append(new_line)
        if buf[-1][-1] == '\n':
            # Don't include the trailing newline in the output
            yield ''.join(buf)[:-1]
            buf = []
```

`chunks` is the sequence of `readline` results the loop sees, ending when
`finish` is set and the source is exhausted (the final falsy reads and the
`StopIteration` close the generator).  Strings are `List Char`.
-/

/-- The follower loop: processes each readline result against the pending
buffer `buf`, returning the list of yielded lines. -/
def followerRun : List (List Char) → List (List Char) → List (List Char)
  | [], _buf => []
  | c :: rest, buf =>
    if c = [] then
      followerRun rest buf
    else
      let buf := buf ++ [c]
      if c.getLast? = some '\n' then
        buf.flatten.dropLast :: followerRun rest []
      else
        followerRun rest buf

/-- A full follower iteration starting from the empty buffer. -/
def followerOutput (chunks : List (List Char)) : List (List Char) :=
  followerRun chunks []

/-- Specification-side: the newline-terminated lines of a character
stream, trailing partial data excluded. -/
def completeLinesAux : List Char → List Char → List (List Char)
  | [], _acc => []
  | ch :: rest, acc =>
    if ch = '\n' then acc :: completeLinesAux rest []
    else completeLinesAux rest (acc ++ [ch])

def completeLines (s : List Char) : List (List Char) :=
  completeLinesAux s []

lemma completeLinesAux_no_newline :
    ∀ (s : List Char) (acc : List Char), '\n' ∉ s → completeLinesAux s acc = [] := by
  intro s
  induction s with
  | nil => intro acc _; rfl
  | cons ch rest ih =>
    intro acc h
    have hch : ch ≠ '\n' := fun he => h (he ▸ List.mem_cons_self ch rest)
    simp only [completeLinesAux, if_neg hch]
    exact ih _ (fun hm => h (List.mem_cons_of_mem _ hm))

lemma completeLinesAux_append_newline :
    ∀ (s : List Char) (t : List Char) (acc : List Char), '\n' ∉ s →
      completeLinesAux (s ++ '\n' :: t) acc = (acc ++ s) :: completeLinesAux t [] := by
  intro s
  induction s with
  | nil =>
    intro t acc _
    simp [completeLinesAux]
  | cons ch rest ih =>
    intro t acc h
    have hch : ch ≠ '\n' := fun he => h (he ▸ List.mem_cons_self ch rest)
    simp only [List.cons_append, completeLinesAux, if_neg hch]
    rw [show acc ++ ch :: rest = (acc ++ [ch]) ++ rest by simp]
    exact ih t (acc ++ [ch]) (fun hm => h (List.mem_cons_of_mem _ hm))

lemma getLast?_ne_newline_notMem {c : List Char} (hne : c ≠ [])
    (hd : '\n' ∉ c.dropLast) (hl : c.getLast? ≠ some '\n') : '\n' ∉ c := by
  intro hmem
  have : c = c.dropLast ++ [c.getLast hne] := (List.dropLast_append_getLast hne).symm
  rw [this] at hmem
  rcases List.mem_append.mp hmem with h | h
  · exact hd h
  · have : c.getLast hne = '\n' := (List.mem_singleton.mp h).symm
    exact hl (by rw [List.getLast?_eq_getLast c hne, this])

/-- The follower loop yields exactly the complete (newline-terminated)
lines of the pending buffer followed by the remaining stream, provided
every readline result contains a newline only in final position. -/
lemma followerRun_eq_completeLines :
    ∀ (chunks : List (List Char)) (buf : List (List Char)),
      '\n' ∉ buf.flatten →
      (∀ c ∈ chunks, '\n' ∉ c.dropLast) →
      followerRun chunks buf = completeLines (buf.flatten ++ chunks.flatten) := by
  intro chunks
  induction chunks with
  | nil =>
    intro buf hbuf _
    simp only [followerRun, List.flatten_nil, List.append_nil, completeLines]
    exact (completeLinesAux_no_newline _ _ hbuf).symm
  | cons c rest ih =>
    intro buf hbuf hok
    have hcok : '\n' ∉ c.dropLast := hok c (List.mem_cons_self c rest)
    have hrok : ∀ d ∈ rest, '\n' ∉ d.dropLast :=
      fun d hd => hok d (List.mem_cons_of_mem _ hd)
    by_cases hce : c = []
    · subst hce
      simp only [followerRun, if_pos rfl, List.flatten_cons, List.nil_append]
      exact ih buf hbuf hrok
    · simp only [followerRun, if_neg hce]
      by_cases hlast : c.getLast? = some '\n'
      · rw [if_pos hlast]
        have hc : c = c.dropLast ++ ['\n'] := by
          have h1 : c = c.dropLast ++ [c.getLast hce] :=
            (List.dropLast_append_getLast hce).symm
          have h2 : c.getLast hce = '\n' := by
            have := List.getLast?_eq_getLast c hce
            rw [this] at hlast
            exact Option.some.inj hlast
          rw [← h2]
          exact h1
      -- the yielded line
        have hyield : (buf ++ [c]).flatten.dropLast = buf.flatten ++ c.dropLast := by
          rw [List.flatten_append, List.flatten_cons, List.flatten_nil,
            List.append_nil, List.dropLast_append_of_ne_nil _ hce]
        rw [hyield, ih [] (by simp) hrok]
        have hsplit : buf.flatten ++ (c :: rest).flatten =
            (buf.flatten ++ c.dropLast) ++ '\n' :: rest.flatten := by
          conv_lhs => rw [List.flatten_cons, hc]
          simp
        simp only [completeLines]
        rw [hsplit, completeLinesAux_append_newline _ _ _
          (by
            intro hm
            rcases List.mem_append.mp hm with h | h
            · exact hbuf h
            · exact hcok h)]
        simp
      · rw [if_neg hlast]
        have hcno : '\n' ∉ c := getLast?_ne_newline_notMem hce hcok hlast
        have hbuf2 : '\n' ∉ (buf ++ [c]).flatten := by
          rw [List.flatten_append, List.flatten_cons, List.flatten_nil, List.append_nil]
          intro hm
          rcases List.mem_append.mp hm with h | h
          · exact hbuf h
          · exact hcno h
        rw [ih (buf ++ [c]) hbuf2 hrok]
        congr 1
        simp [List.flatten_append]

lemma completeLines_of_lines :
    ∀ (lines : List (List Char)), (∀ l ∈ lines, '\n' ∉ l) →
      completeLines ((lines.map (fun l => l ++ ['\n'])).flatten) = lines := by
  intro lines
  induction lines with
  | nil => intro _; rfl
  | cons l rest ih =>
    intro h
    have hl : '\n' ∉ l := h l (List.mem_cons_self l rest)
    have hrest : ∀ m ∈ rest, '\n' ∉ m := fun m hm => h m (List.mem_cons_of_mem _ hm)
    simp only [List.map_cons, List.flatten_cons, completeLines]
    rw [List.append_assoc, List.singleton_append,
      completeLinesAux_append_newline _ _ _ hl]
    rw [List.nil_append]
    exact congrArg (l :: ·) (ih hrest)

/-- C4: when the readline results are exactly a sequence of appended
newline-terminated lines, the follower yields exactly those lines, in
order, each once, and no yielded line contains a newline character. -/
theorem follower_yields_appended_lines (lines : List (List Char))
    (h : ∀ l ∈ lines, '\n' ∉ l) :
    followerOutput (lines.map (fun l => l ++ ['\n'])) = lines ∧
      ∀ out ∈ followerOutput (lines.map (fun l => l ++ ['\n'])), '\n' ∉ out := by
  have hout : followerOutput (lines.map (fun l => l ++ ['\n'])) = lines := by
    rw [followerOutput, followerRun_eq_completeLines _ [] (by simp)
      (by
        intro c hc
        rcases List.mem_map.mp hc with ⟨l, hl, rfl⟩
        rw [List.dropLast_concat]
        exact h l hl)]
    rw [List.flatten_nil, List.nil_append]
    exact completeLines_of_lines lines h
  exact ⟨hout, fun out hm => h out (hout ▸ hm)⟩

theorem follower_yields_appended_lines_witness :
    followerOutput [['a', '\n'], ['b', 'c', '\n']] = [['a'], ['b', 'c']] :=
  (follower_yields_appended_lines [['a'], ['b', 'c']] (by decide)).1

lemma followerRun_trailing_no_newline (p : List Char) (hp : '\n' ∉ p) :
    ∀ (chunks : List (List Char)) (buf : List (List Char)),
      followerRun (chunks ++ [p]) buf = followerRun chunks buf := by
  intro chunks
  induction chunks with
  | nil =>
    intro buf
    by_cases hpe : p = []
    · simp [followerRun, hpe]
    · have hlast : p.getLast? ≠ some '\n' := by
        intro hc
        exact hp (by
          have := List.getLast?_eq_getLast p hpe
          rw [this] at hc
          have := Option.some.inj hc
          rw [← this]
          exact List.getLast_mem hpe)
      simp [followerRun, hpe, if_neg hlast]
  | cons c rest ih =>
    intro buf
    by_cases hce : c = []
    · simp only [List.cons_append, followerRun, if_pos hce]
      exact ih buf
    · simp only [List.cons_append, followerRun, if_neg hce]
      by_cases hlast : c.getLast? = some '\n'
      · rw [if_pos hlast, if_pos hlast]
        exact congrArg _ (ih [])
      · rw [if_neg hlast, if_neg hlast]
        exact ih (buf ++ [c])

/-- C5: a readline result with no newline is only buffered — nothing is
yielded for it, and it is prepended (via the buffer) to subsequent data —
and if the stream ends (finish set, source exhausted) while such a
partial chunk is the trailing data, it is silently discarded: the output
is exactly the output without it. -/
theorem follower_partial_line_handling (p : List Char)
    (hp : '\n' ∉ p) (hpne : p ≠ []) :
    (∀ chunks, followerOutput (chunks ++ [p]) = followerOutput chunks) ∧
      (∀ rest buf, followerRun (p :: rest) buf = followerRun rest (buf ++ [p])) := by
  constructor
  · intro chunks
    exact followerRun_trailing_no_newline p hp chunks []
  · intro rest buf
    have hlast : p.getLast? ≠ some '\n' := by
      intro hc
      exact hp (by
        have := List.getLast?_eq_getLast p hpne
        rw [this] at hc
        have := Option.some.inj hc
        rw [← this]
        exact List.getLast_mem hpne)
    simp [followerRun, hpne, if_neg hlast]

theorem follower_partial_line_handling_witness :
    followerOutput ([['a', '\n']] ++ [['x', 'y']]) = followerOutput [['a', '\n']] :=
  (follower_partial_line_handling ['x', 'y'] (by decide) (by decide)).1 [['a', '\n']]

/-! ## LinePipe.flow (reversefold/util/multiproc.py)

```python
def flow(self):
    for line in iter(self.input_stream.readline, b''):
        if self.capture_output:
            self.buf.append(line)
        self.output_func('%s%s%s\n' % (self.prefix, line.rstrip(), self.postfix))
```

`pre` / `post` model `self.prefix` / `self.postfix`.  Python's
`line.rstrip()` with no argument removes *all* trailing whitespace
characters, modelled over the ASCII whitespace set.
-/

/-- The characters Python's `str.rstrip()` strips by default
(ASCII subset). -/
def pyWhitespace (ch : Char) : Bool :=
  ch = ' ' || ch = '\t' || ch = '\n' || ch = '\r' || ch = '\x0b' || ch = '\x0c'

/-- Python `line.rstrip()`: remove every trailing whitespace character. -/
def pyRstrip (s : List Char) : List Char :=
  (s.reverse.dropWhile pyWhitespace).reverse

/-- `LinePipe.flow`: returns the strings passed to `output_func` and the
final contents of the capture buffer `self.buf`. -/
def linePipeFlow (pre post : List Char) (capture : Bool) :
    List (List Char) → List (List Char) × List (List Char)
  | [] => ([], [])
  | l :: rest =>
    let r := linePipeFlow pre post capture rest
    ((pre ++ pyRstrip l ++ post ++ ['\n']) :: r.1,
      (if capture then [l] else []) ++ r.2)

/-- Specification-side restatement: drop the trailing run of whitespace,
computed front-to-back. -/
def stripTrailingWhitespace : List Char → List Char
  | [] => []
  | ch :: rest =>
    let r := stripTrailingWhitespace rest
    if r = [] && pyWhitespace ch then [] else ch :: r

lemma pyRstrip_eq_stripTrailingWhitespace :
    ∀ s : List Char, pyRstrip s = stripTrailingWhitespace s := by
  intro s
  induction s with
  | nil => rfl
  | cons ch rest ih =>
    simp only [pyRstrip, List.reverse_cons, List.dropWhile_append,
      stripTrailingWhitespace] at *
    by_cases hemp : (rest.reverse.dropWhile pyWhitespace).isEmpty
    · rw [if_pos hemp] at *
      have hr : stripTrailingWhitespace rest = [] := by
        rw [← ih]
        simpa [List.isEmpty_iff] using hemp
      rw [hr]
      by_cases hws : pyWhitespace ch
      · simp [List.dropWhile, hws]
      · simp [List.dropWhile, hws]
    · rw [if_neg hemp] at *
      have hr : stripTrailingWhitespace rest ≠ [] := by
        rw [← ih]
        simp only [List.isEmpty_iff] at hemp
        simpa using hemp
      simp only [Bool.and_eq_true, decide_eq_true_eq]
      rw [if_neg (by simp [hr])]
      rw [← ih]
      simp [pyRstrip]

/-- C6 counterexample: with empty decorations and input line `"a \n"`
(a line whose body ends in a space), the pump forwards `"a\n"`, not the
`"a \n"` that stripping exactly the trailing newline would give: the code
strips the trailing space as well. -/
theorem linePipe_flow_strips_trailing_space :
    (linePipeFlow [] [] true [['a', ' ', '\n']]).1 = [['a', '\n']] ∧
      ['a', '\n'] ≠ [] ++ ['a', ' '] ++ [] ++ ['\n'] := by
  constructor
  · rfl
  · decide

/-- C6 (amended): for every input line the forwarded text is the prefix,
then the line with its whole trailing whitespace run (newline included)
stripped, then the postfix, then exactly one appended newline; when
capture is enabled the raw undecorated lines are appended to the capture
buffer (and the buffer stays empty otherwise). -/
theorem linePipe_flow_decorates_lines (pre post : List Char) (capture : Bool)
    (lines : List (List Char)) :
    (linePipeFlow pre post capture lines).1 =
        lines.map (fun l => pre ++ stripTrailingWhitespace l ++ post ++ ['\n']) ∧
      (linePipeFlow pre post capture lines).2 =
        (if capture then lines else []) := by
  induction lines with
  | nil => simp [linePipeFlow]
  | cons l rest ih =>
    simp only [linePipeFlow, List.map_cons, ih.1, ih.2,
      pyRstrip_eq_stripTrailingWhitespace]
    constructor
    · trivial
    · cases capture <;> simp

/-! ## LockedPidFile (reversefold/util/daemonize.py)

```python
def acquire(self, pid=None):
    self.pidfile_lock = process_lock.InterProcessLock(self.pidfile_lock_path)
    if not self.pidfile_lock.acquire():
        return False
    if pid is None:
        pid = os.getpid()
    if os.path.exists(self.pidfile_path):
        try:
            with open(self.pidfile_path) as f:
                stalepid = int(f.read())
            if stalepid in psutil.pids():
                raise Error('Pidfile %s exists and is not locked but pid %s is still alive' % ...)
        except Exception as exc:
            LOG.error('Exception %r checking the stale pidfile, ignoring', exc)
        LOG.warning('Pidfile exists but is not locked, removing %s', self.pidfile_path)
        os.unlink(self.pidfile_path)
    self.pidfile = os.fdopen(os.open(self.pidfile_path, os.O_CREAT | os.O_EXCL | os.O_WRONLY, 0o600), 'ax')
    self.pidfile.write(str(pid))
    self.pidfile.flush()
    return True

def release(self):
    if not self.pidfile_lock.acquired:
        raise Error('Lock is not locked')
    self.pidfile.close()
    if os.path.exists(self.pidfile_path):
        os.unlink(self.pidfile_path)
    os.unlink(self.pidfile_lock_path)
    self.pidfile_lock.release()
```

The filesystem state around one pidfile path is modelled explicitly.
`pidfile = none` means the pidfile does not exist; `some none` means it
exists with unparseable content (`int()` raises); `some (some p)` means
it exists and records pid `p`.  `alive` models `psutil.pids()`.  The
claims only concern runs with no competing lock holder, so the blocking
`InterProcessLock.acquire()` returns `True` after creating the sidecar
lock file.
-/

structure LockState where
  pidfile : Option (Option Nat)
  lockfile : Bool
  lockHeld : Bool
deriving DecidableEq, Repr

/-- Messages logged by `LockedPidFile.acquire` along the stale-file path. -/
inductive AcqLog where
  | exceptionIgnored
  | removingStale
deriving DecidableEq, Repr

/-- `LockedPidFile.acquire(pid)` with no competing lock holder: returns
the `True`/`False` result, the new filesystem state, and the log
messages emitted. -/
def LockedPidFile.acquire (alive : List Nat) (s : LockState) (pid : Nat) :
    Bool × LockState × List AcqLog :=
  -- InterProcessLock(self.pidfile_lock_path).acquire(): creates the
  -- sidecar lock file and succeeds (no competing holder).
  let s := { s with lockfile := true, lockHeld := true }
  match s.pidfile with
  | none =>
    -- os.path.exists is false: straight to the exclusive create + write.
    (true, { s with pidfile := some (some pid) }, [])
  | some content =>
    -- The try block: int(f.read()) may raise; if the recorded pid is
    -- alive, Error is raised.  Either exception is caught by the blanket
    -- `except Exception` and only logged.
    let raised : Bool :=
      match content with
      | some stale => decide (stale ∈ alive)
      | none => true
    let logs := (if raised then [AcqLog.exceptionIgnored] else []) ++ [AcqLog.removingStale]
    -- os.unlink(self.pidfile_path) followed by the exclusive create
    -- and write of the new pid.
    let s := { s with pidfile := none }
    let s := { s with pidfile := some (some pid) }
    (true, s, logs)

/-- `LockedPidFile.release`. -/
def LockedPidFile.release (s : LockState) : Except String LockState :=
  if ¬ s.lockHeld then
    Except.error "Lock is not locked"
  else
    -- close the pidfile handle; unlink the pidfile if present; unlink
    -- the sidecar lock file; release the inter-process lock.
    let s := { s with pidfile := none }
    let s := { s with lockfile := false }
    let s := { s with lockHeld := false }
    Except.ok s

/-- The state with no pidfile, no sidecar lock file and no held lock. -/
def cleanLockState : LockState := ⟨none, false, false⟩

/-- C7: with no other holder, acquire (recording the caller's pid), then
release, then a second acquire all succeed, and after each release
neither the pidfile nor the sidecar lock file exists. -/
theorem locked_pidfile_roundtrip (alive : List Nat) (pid pid2 : Nat) :
    (LockedPidFile.acquire alive cleanLockState pid).1 = true ∧
      (LockedPidFile.acquire alive cleanLockState pid).2.1.pidfile = some (some pid) ∧
      LockedPidFile.release (LockedPidFile.acquire alive cleanLockState pid).2.1 =
        Except.ok cleanLockState ∧
      cleanLockState.pidfile = none ∧ cleanLockState.lockfile = false ∧
      (LockedPidFile.acquire alive cleanLockState pid2).1 = true ∧
      LockedPidFile.release (LockedPidFile.acquire alive cleanLockState pid2).2.1 =
        Except.ok cleanLockState := by
  refine ⟨rfl, rfl, ?_, rfl, rfl, rfl, ?_⟩ <;>
    simp [LockedPidFile.acquire, LockedPidFile.release, cleanLockState]

/-- C8: acquiring over a pidfile that records a pid that is no longer
running succeeds: the stale file is removed and replaced by a fresh
pidfile recording the acquirer's pid (with only the removal warning
logged). -/
theorem locked_pidfile_acquire_stale_dead (alive : List Nat) (stale pid : Nat)
    (h : stale ∉ alive) :
    LockedPidFile.acquire alive ⟨some (some stale), false, false⟩ pid =
      (true, ⟨some (some pid), true, true⟩, [AcqLog.removingStale]) := by
  simp [LockedPidFile.acquire, h]

theorem locked_pidfile_acquire_stale_dead_witness :
    LockedPidFile.acquire [1] ⟨some (some 2), false, false⟩ 3 =
      (true, ⟨some (some 3), true, true⟩, [AcqLog.removingStale]) :=
  locked_pidfile_acquire_stale_dead [1] 2 3 (by decide)

/-- C1 (what the code actually does): with the pidfile recording pid `1`
while pid `1` is alive, `acquire` still succeeds — its own
"still alive" `Error` is swallowed by the blanket `except Exception`
(logged as ignored), the existing pidfile is unlinked, and a new pidfile
recording the acquirer's pid `42` is written. -/
theorem locked_pidfile_acquire_alive_overwrites :
    LockedPidFile.acquire [1] ⟨some (some 1), false, false⟩ 42 =
      (true, ⟨some (some 42), true, true⟩,
        [AcqLog.exceptionIgnored, AcqLog.removingStale]) := by
  decide

/-! ## The app-pidfile failure branch of `main` (reversefold/util/daemonize.py)

```python
from datetime import datetime, timedelta
...
        if applock and not applock.acquire(proc.pid):
            try:
                proc.terminate()
                start = datetime.datetime.now()
                while proc.poll() is None and datetime.datetime.now() - start < datetime.timedelta(seconds=1):
                    time.sleep(0.1)
                if proc.poll() is None:
                    proc.kill()
            except Exception:
                LOG.exception('Exception killing the app process after acquiring the pidfile failed.')
            raise Error('Could not acquire app pidfile lock %s' % (applock.file_path,))
```

The module imports the *class* `datetime`, so `datetime.datetime` and
`datetime.timedelta` are attribute lookups on that class; likewise
`applock.file_path` is an attribute lookup on a `LockedPidFile`
instance.  Python resolves such lookups against the object's available
attribute names and raises `AttributeError` when the name is absent, so
the branch is modelled with the attribute tables below and the lookups
performed explicitly.
-/

/-- Attribute names available on Python's `datetime` class (the name
`datetime` bound by `from datetime import datetime, timedelta`). -/
def datetimeClassAttrs : List String :=
  ["now", "today", "utcnow", "fromtimestamp", "utcfromtimestamp",
   "fromordinal", "combine", "strptime", "date", "time", "replace",
   "astimezone", "timestamp", "isoformat", "strftime", "min", "max",
   "resolution", "year", "month", "day", "hour", "minute", "second",
   "microsecond", "tzinfo"]

/-- Attribute names available on a `LockedPidFile` instance (its
`__init__` fields and methods). -/
def lockedPidFileAttrs : List String :=
  ["pidfile_path", "pidfile_lock_path", "pidfile", "pidfile_lock",
   "acquire", "release"]

inductive ChildSignal where
  | term
  | kill
deriving DecidableEq, Repr

inductive BranchOutcome where
  | errorRaised (msg : String)
  | attributeError (attr : String)
deriving DecidableEq, Repr

/-- The branch taken by `main` when the app pidfile lock cannot be
acquired after the child was spawned: returns the signals delivered to
the child and how the branch terminates.  `childAliveAtPoll k` models
`proc.poll() is None` at the `k`-th 0.1-second poll of the 1-second
grace window (ten polls). -/
def appLockFailureBranch (childAliveAtPoll : Nat → Bool) :
    List ChildSignal × BranchOutcome :=
  -- proc.terminate()
  let sigs := [ChildSignal.term]
  -- start = datetime.datetime.now(): attribute lookup `datetime` on the
  -- datetime class.
  let sigs :=
    if "datetime" ∈ datetimeClassAttrs then
      -- (Unreachable for the real attribute table.)  The grace loop:
      -- poll every 0.1s for up to 1s, then force-kill if still alive.
      if (List.range 10).all childAliveAtPoll then
        sigs ++ [ChildSignal.kill]
      else
        sigs
    else
      -- AttributeError: caught by `except Exception` and only logged.
      sigs
  -- raise Error('Could not acquire app pidfile lock %s' % (applock.file_path,)):
  -- the attribute lookup `file_path` happens before the Error is built.
  if "file_path" ∈ lockedPidFileAttrs then
    (sigs, BranchOutcome.errorRaised "Could not acquire app pidfile lock")
  else
    (sigs, BranchOutcome.attributeError "file_path")

/-- C3 (what the code actually does): whatever the child does, the
app-pidfile failure branch only ever sends `terminate` — the 1-second
grace poll and the force-kill are never reached because
`datetime.datetime.now()` raises `AttributeError` (the module imported
the class `datetime`, which has no attribute `datetime`), which the
`except Exception` swallows — and the branch then fails with an
`AttributeError` for `applock.file_path` (no such attribute on
`LockedPidFile`) instead of the descriptive could-not-acquire `Error`. -/
theorem applock_failure_branch_attribute_error (childAliveAtPoll : Nat → Bool) :
    appLockFailureBranch childAliveAtPoll =
      ([ChildSignal.term], BranchOutcome.attributeError "file_path") := by
  have h1 : ("datetime" ∈ datetimeClassAttrs) = False := by
    simp only [datetimeClassAttrs]
    decide
  have h2 : ("file_path" ∈ lockedPidFileAttrs) = False := by
    simp only [lockedPidFileAttrs]
    decide
  simp [appLockFailureBranch, h1, h2]

/-! ## get_process_tree (reversefold/util/proc.py and proc2.py)

```python
def get_process_tree(pid):
    try:
        proc = psutil.Process(pid)
    except psutil.NoSuchProcess:
        return []
    return [proc] + proc.children(recursive=True)
```

The OS process table is modelled as a forest of process trees.
`psutil.Process(pid)` is the lookup of the unique process with that pid
(`NoSuchProcess` when absent), and `proc.children(recursive=True)` is
the list of all processes in the subtrees rooted at `proc`'s children.
Processes are identified by their pids (a pid occurs at most once in a
process table).
-/

mutual
inductive PTree where
  | node (pid : Nat) (children : PForest)
inductive PForest where
  | nil
  | cons (t : PTree) (ts : PForest)
end

def PTree.pid : PTree → Nat
  | .node p _ => p

def PTree.children : PTree → PForest
  | .node _ cs => cs

mutual
/-- All pids in a process tree: the root, then the pids of every subtree
rooted at a child (the order `children(recursive=True)` discovers). -/
def PTree.pids : PTree → List Nat
  | .node p cs => p :: PForest.pids cs
def PForest.pids : PForest → List Nat
  | .nil => []
  | .cons t ts => PTree.pids t ++ PForest.pids ts
end

/-- `proc.children(recursive=True)` for the process at the root of a
tree, as pids. -/
def PTree.childPids (t : PTree) : List Nat :=
  PForest.pids t.children

mutual
/-- `psutil.Process(q)` over a tree: the subtree rooted at the process
with pid `q`, if it exists. -/
def PTree.find : PTree → Nat → Option PTree
  | .node p cs, q => if p = q then some (.node p cs) else PForest.find cs q
def PForest.find : PForest → Nat → Option PTree
  | .nil, _ => none
  | .cons t ts, q =>
    match PTree.find t q with
    | some r => some r
    | none => PForest.find ts q
end

/-- `get_process_tree(pid)` over the process table `f`: empty when the
lookup raises `NoSuchProcess`, otherwise the root followed by all
recursive descendants. -/
def get_process_tree (f : PForest) (q : Nat) : List Nat :=
  match PForest.find f q with
  | none => []
  | some t => t.pid :: t.childPids

mutual
theorem PTree.find_sound_tree (t : PTree) (q : Nat) (r : PTree) (h : t.find q = some r) :
    r.pid = q ∧ r.pids.Sublist t.pids := by
  cases t with
  | node p cs =>
    rw [PTree.find] at h
    by_cases hpq : p = q
    · rw [if_pos hpq] at h
      cases h
      exact ⟨hpq, List.Sublist.refl _⟩
    · rw [if_neg hpq] at h
      obtain ⟨hq, hsub⟩ := PForest.find_sound_forest cs q r h
      rw [PTree.pids]
      exact ⟨hq, hsub.cons p⟩
theorem PForest.find_sound_forest (f : PForest) (q : Nat) (r : PTree) (h : f.find q = some r) :
    r.pid = q ∧ r.pids.Sublist f.pids := by
  cases f with
  | nil => cases h
  | cons t ts =>
    rw [PForest.find] at h
    cases hf : PTree.find t q with
    | some r2 =>
      rw [hf] at h
      cases h
      obtain ⟨hq, hsub⟩ := PTree.find_sound_tree t q r hf
      rw [PForest.pids]
      exact ⟨hq, hsub.trans (List.sublist_append_left _ _)⟩
    | none =>
      rw [hf] at h
      obtain ⟨hq, hsub⟩ := PForest.find_sound_forest ts q r h
      rw [PForest.pids]
      exact ⟨hq, hsub.trans (List.sublist_append_right _ _)⟩
end

lemma PTree.pids_eq (t : PTree) : t.pids = t.pid :: t.childPids := by
  cases t with
  | node p cs => rfl

/-- C9: over any process table (pids pairwise distinct),
`get_process_tree q` is the root followed by all recursively discovered
descendants, each exactly once; it is the single entry `[q]` when the
process has no children; and it is empty — without raising — when no
process with pid `q` exists. -/
theorem get_process_tree_spec (f : PForest) (q : Nat) (hnodup : f.pids.Nodup) :
    (q ∉ f.pids → get_process_tree f q = []) ∧
      (∀ r, PForest.find f q = some r →
        get_process_tree f q = q :: r.childPids ∧
          (get_process_tree f q).Nodup ∧
          (r.childPids = [] → get_process_tree f q = [q])) := by
  constructor
  · intro habs
    cases hf : PForest.find f q with
    | none => rw [get_process_tree, hf]
    | some r =>
      obtain ⟨hq, hsub⟩ := PForest.find_sound_forest f q r hf
      exact absurd (hsub.mem (by rw [PTree.pids_eq, hq]; exact List.mem_cons_self q _)) habs
  · intro r hr
    obtain ⟨hq, hsub⟩ := PForest.find_sound_forest f q r hr
    have hget : get_process_tree f q = q :: r.childPids := by
      rw [get_process_tree, hr]
      simp only [hq]
    refine ⟨hget, ?_, ?_⟩
    · rw [hget, ← hq, ← PTree.pids_eq]
      exact hnodup.sublist hsub
    · intro hch
      rw [hget, hch]

def exampleForest : PForest :=
  PForest.cons
    (PTree.node 1 (PForest.cons (PTree.node 2 PForest.nil) PForest.nil))
    (PForest.cons (PTree.node 3 PForest.nil) PForest.nil)

theorem get_process_tree_spec_witness :
    get_process_tree exampleForest 1 =
      1 :: (PTree.node 1 (PForest.cons (PTree.node 2 PForest.nil) PForest.nil)).childPids :=
  (((get_process_tree_spec exampleForest 1 (by decide)).2)
    (PTree.node 1 (PForest.cons (PTree.node 2 PForest.nil) PForest.nil)) rfl).1
